import Mathlib

/-!
Verification development for the MPI / MPI+OpenMP DES brute-force key search
(`program.c`, `program_parallel.c`, `bruteforce.c`, `bruteforce_parallel.c`).

The search core is embedded shallowly: the key-space partitioner, the per-rank
and per-thread scan loops, the shared `found` cell with its guarded commit and
its unguarded receive deposit, the worker polling loop, the shutdown paths for
the posted non-blocking receive, and the rank-0 reporter.  Machine `long`
arithmetic never goes negative on the quantities modelled (lower bounds,
counters, keys), and the one place the C code computes `-1` (an empty range
upper bound when `range_per_node` is zero) is matched by truncated `Nat`
subtraction producing the same empty scan; so `Nat` is used throughout.
-/

/-- Keys handled per MPI rank: `long range_per_node = upper / N;`
(`program.c:369`, `program_parallel.c:357`, `bruteforce.c:111`). -/
def range_per_node (upper N : Nat) : Nat := upper / N

/-- Lower bound of rank `id`'s range: `mylower = range_per_node * id;`
(`program.c:370`). -/
def mylower (upper N id : Nat) : Nat := range_per_node upper N * id

/-- Upper loop bound of rank `id`'s range:
`myupper = range_per_node * (id+1) - 1; if(id == N-1) myupper = upper;`
(`program.c:371-375`).  The search loop runs `for(i = mylower; i < myupper; ++i)`,
so `myupper` is an exclusive bound. -/
def myupper (upper N id : Nat) : Nat :=
  if id = N - 1 then upper else range_per_node upper N * (id + 1) - 1

/-- Per-thread slice size inside a rank's range:
`keys_per_thread = (myupper - mylower) / total_threads` (`program_parallel.c:393-394`). -/
def keys_per_thread (upper N T id : Nat) : Nat :=
  (myupper upper N id - mylower upper N id) / T

/-- Per-thread lower bound: `thread_lower = mylower + thread_id * keys_per_thread`
(`program_parallel.c:395`). -/
def thread_lower (upper N T id t : Nat) : Nat :=
  mylower upper N id + t * keys_per_thread upper N T id

/-- Per-thread exclusive upper bound:
`thread_upper = (thread_id == total_threads - 1) ? myupper : thread_lower + keys_per_thread`
(`program_parallel.c:396`). -/
def thread_upper (upper N T id t : Nat) : Nat :=
  if t = T - 1 then myupper upper N id
  else thread_lower upper N T id t + keys_per_thread upper N T id

/-- The candidate keys actually visited by thread `t` of rank `id`:
the loop `for(long i = thread_lower; i < thread_upper; ++i)`
(`program_parallel.c:398`).  With `T = 1` this is exactly the single loop of
`program.c:397` / `bruteforce.c:125` over `[mylower, myupper)`. -/
def threadKeys (upper N T id t : Nat) : List Nat :=
  List.range' (thread_lower upper N T id t)
    (thread_upper upper N T id t - thread_lower upper N T id t)

/-- All candidate keys visited by rank `id`, across its `T` worker threads. -/
def rankKeys (upper N T id : Nat) : List Nat :=
  (List.range T).flatMap (threadKeys upper N T id)

/-- All candidate keys visited by the whole run (`N` ranks, `T` threads each). -/
def allKeys (upper N T : Nat) : List Nat :=
  (List.range N).flatMap (rankKeys upper N T)

/-- Modelled from the spec (section 4.1): part `i` of the spec's partitioner
starts at `i * base` with `base = total / parts`.  Kept separate from the
code-derived `mylower`/`myupper` so the two can be compared. -/
def specLower (total parts i : Nat) : Nat := (total / parts) * i

/-- Modelled from the spec (section 4.1): part `i` ends (exclusively) at
`(i+1) * base`, except the last part which ends at `total`, absorbing the
remainder of the integer division. -/
def specUpper (total parts i : Nat) : Nat :=
  if i = parts - 1 then total else (total / parts) * (i + 1)

/-- First satisfying key met by rank `id`'s scan, in scan order.  With at most
one satisfying key in the whole space this is schedule-independent: the early
termination checks can only cut a scan short after some rank has already
committed a nonzero key, and the only possible commit is this unique key, so
the rank owning it always reaches it and no other rank ever commits. -/
def rankHit (pred : Nat → Bool) (upper N T id : Nat) : Option Nat :=
  (rankKeys upper N T id).find? pred

/-- The keys committed across the run: one per rank whose scan hits. -/
def commits (pred : Nat → Bool) (upper N T : Nat) : List Nat :=
  (List.range N).filterMap (fun id => rankHit pred upper N T id)

/-- Accumulator used by `finalFound` to combine committed keys into rank 0's
cell: `found` starts at `0` (`long found = 0;` `program.c:387`) and keeps the
first nonzero key handed to it, a zero key leaving it unchanged because the
success test and the termination tests compare against `0`.  Only used for
runs in which at most the key `0` is ever committed (no satisfier, or
satisfiers all equal to `0`), where every schedule agrees; the code's actual
receive deposit overwrites unconditionally (see `foundStep`), and
delivery-dependent conclusions go through `rank0Found` instead. -/
def commitStep (found k : Nat) : Nat := if found = 0 then k else found

/-- The value of `found` on rank 0 at reporting time, assuming every committed
key reaches rank 0.  Exact for the runs it is used to reason about — no
satisfier (nothing is committed or announced) and only-key-`0` satisfiers
(every commit and announcement is `0`) — where delivery cannot matter.  When a
rank other than 0 commits a nonzero key, delivery is not guaranteed: rank 0
cancels its posted receive as soon as its own scan ends (`program.c:428-431`),
so a later announcement is lost; `rank0Found` makes that race explicit. -/
def finalFound (pred : Nat → Bool) (upper N T : Nat) : Nat :=
  (commits pred upper N T).foldl commitStep 0

/-- The reporter's two outcomes (`program.c:440-451`). -/
inductive Outcome where
  | success (k : Nat)
  | notFound
deriving DecidableEq

/-- Outcome of a whole run: `if(found > 0)` print SUCCESS with the key, else
print `FAILED - Key not found in search space` (`program.c:440-451`).
Used only for runs without any nonzero commit (see `finalFound`); the
delivery-explicit version is `runOutcomeD`. -/
def runOutcome (pred : Nat → Bool) (upper N T : Nat) : Outcome :=
  if 0 < finalFound pred upper N T then Outcome.success (finalFound pred upper N T)
  else Outcome.notFound

/-- Rank 0's `found` cell at reporting time, with announcement delivery made
explicit.  Rank 0 reports from its own cell only: the cell holds rank 0's own
committed key when its scan hits one (`found = i`, `program.c:408`); otherwise
it holds the key of the single announcement, if any, that completed the posted
receive before rank 0 cancelled it at the end of its own scan
(`program.c:428-431`).  `announced = none` models the cancel winning that
race, after which a peer's committed key can never reach the reporter. -/
def rank0Found (pred : Nat → Bool) (upper N T : Nat) (announced : Option Nat) :
    Nat :=
  match rankHit pred upper N T 0 with
  | some k => k
  | none => announced.getD 0

/-- Outcome of a run as rank 0 reports it (`program.c:440-451`), parameterised
by the announcement, if any, delivered to rank 0 before its cancel:
`if(found > 0)` print SUCCESS with the key, else print FAILED. -/
def runOutcomeD (pred : Nat → Bool) (upper N T : Nat) (announced : Option Nat) :
    Outcome :=
  if 0 < rank0Found pred upper N T announced then
    Outcome.success (rank0Found pred upper N T announced)
  else Outcome.notFound

/-- The guard on which a rank stops because of a remote announcement:
`if(flag && found != 0) break;` (`program.c:400`, `program_parallel.c:411`). -/
def stopOnRemote (flag : Bool) (found : Nat) : Bool :=
  flag && decide (found ≠ 0)

/-- The two kinds of write that reach a process's `found` cell. -/
inductive FoundEvent where
  | localCommit (k : Nat)
  | recvAnnounce (k : Nat)
deriving DecidableEq

/-- How one write updates the cell.  A local commit is the guarded critical
section `if(found == 0){ found = i; ... }` (`program_parallel.c:418-427`).
A completing `MPI_Irecv(&found, ...)` (`program_parallel.c:379`) deposits the
announced key straight into the cell with no guard at all. -/
def foundStep (found : Nat) : FoundEvent → Nat
  | FoundEvent.localCommit k => if found = 0 then k else found
  | FoundEvent.recvAnnounce k => k

/-- The cell value after a sequence of writes, starting from `found = 0`. -/
def runFound (es : List FoundEvent) : Nat := es.foldl foundStep 0

/-- Per-process commit-and-broadcast state: the `found` cell plus the list of
keys for which the `for(node=0; node<N; node++) MPI_Send(...)` broadcast loop
has been executed. -/
structure BState where
  found : Nat
  bcasts : List Nat
deriving DecidableEq

/-- One worker thread reaching the critical section with a satisfying key `k`:
`if(found == 0){ found = k; for(node) MPI_Send(&found, ..., node, ...); }`
(`program_parallel.c:418-427`). -/
def hitStep (s : BState) (k : Nat) : BState :=
  if s.found = 0 then { found := k, bcasts := s.bcasts ++ [k] } else s

/-- Process state after its threads reach the critical section with the given
satisfying keys, in that order. -/
def runHits (ks : List Nat) : BState := ks.foldl hitStep { found := 0, bcasts := [] }

/-- The point-to-point announcements the process emits: one `(node, key)` send
per peer for every execution of the broadcast loop. -/
def sends (N : Nat) (s : BState) : List (Nat × Nat) :=
  s.bcasts.flatMap (fun k => (List.range N).map (fun node => (node, k)))

/-- Observable events of one hybrid worker thread's loop
(`program_parallel.c:398-451`). -/
inductive WEvent where
  | sigRead (v : Nat)
  | chanCheck (c : Nat)
  | trial (k : Nat)
  | commit (k : Nat)
deriving DecidableEq

/-- Environment of one worker thread: its OpenMP id, the trial predicate, the
value of the shared `found` cell observed by the atomic read at the top of the
`n`-th iteration, and whether the `MPI_Test` issued at the `n`-th iteration
reports a completed receive carrying a nonzero key. -/
structure WorkerEnv where
  thread_id : Nat
  pred : Nat → Bool
  sig : Nat → Nat
  flagHit : Nat → Bool

/-- The `local_keys_tested` update: `local_keys_tested++` followed by the reset
`if(local_keys_tested % 100000 == 0){ keys_tested += 100000; local_keys_tested = 0; }`
(`program_parallel.c:431-438`). -/
def bumpCounter (c : Nat) : Nat := if (c + 1) % 100000 = 0 then 0 else c + 1

/-- One hybrid worker thread's loop body (`program_parallel.c:398-451`),
emitting its observable events.  Each iteration: atomic read of `found`, break
if nonzero; if this is thread 0 and `local_keys_tested % 10000 == 0`, an
`MPI_Test` channel check, breaking if it reports a nonzero remote key; then the
trial `tryKey(i, ...)`, entering the commit critical section and breaking on a
hit; otherwise the counter is bumped and the next key is tried.  `fuel` is the
remaining loop length `thread_upper - i`. -/
def workerLoop (env : WorkerEnv) : Nat → Nat → Nat → Nat → List WEvent
  | 0, _, _, _ => []
  | fuel + 1, i, c, n =>
    if env.sig n ≠ 0 then [WEvent.sigRead (env.sig n)]
    else if env.thread_id = 0 ∧ c % 10000 = 0 then
      if env.flagHit n then [WEvent.sigRead (env.sig n), WEvent.chanCheck c]
      else if env.pred i then
        [WEvent.sigRead (env.sig n), WEvent.chanCheck c, WEvent.trial i,
          WEvent.commit i]
      else
        WEvent.sigRead (env.sig n) :: WEvent.chanCheck c :: WEvent.trial i ::
          workerLoop env fuel (i + 1) (bumpCounter c) (n + 1)
    else
      if env.pred i then
        [WEvent.sigRead (env.sig n), WEvent.trial i, WEvent.commit i]
      else
        WEvent.sigRead (env.sig n) :: WEvent.trial i ::
          workerLoop env fuel (i + 1) (bumpCounter c) (n + 1)

/-- Number of trial-predicate calls in a worker trace. -/
def trialCount (es : List WEvent) : Nat :=
  es.countP (fun e => match e with | WEvent.trial _ => true | _ => false)

/-- The counter values at which a worker trace touched the inter-process
channel (issued `MPI_Test`). -/
def chanChecks (es : List WEvent) : List Nat :=
  es.filterMap (fun e => match e with | WEvent.chanCheck c => some c | _ => none)

/-- MPI calls a process can make on the posted receive after its search loop. -/
inductive MpiOp where
  | cancel
  | wait
deriving DecidableEq

/-- What every rank of `program.c` runs right after its search loop:
`if(!flag){ MPI_Cancel(&req); MPI_Wait(&req, &st); }` (`program.c:428-431`;
identical in `program_parallel.c:458-461`). -/
def program_post_loop (flag : Bool) : List MpiOp :=
  if flag then [] else [MpiOp.cancel, MpiOp.wait]

/-- The extra wait rank 0 of `program.c` performs before reporting:
`if(!flag){ MPI_Wait(&req, &st); }` (`program.c:434-436`); by then the request
is inactive, so this wait returns immediately. -/
def program_rank0_extra (flag : Bool) : List MpiOp :=
  if flag then [] else [MpiOp.wait]

/-- The full post-loop sequence of receive-related MPI calls for rank `id` of
`program.c`, given whether `MPI_Test` ever observed the receive complete. -/
def program_exit_ops (id : Nat) (flag : Bool) : List MpiOp :=
  program_post_loop flag ++ (if id = 0 then program_rank0_extra flag else [])

/-- The post-loop receive-related MPI calls of `bruteforce.c` (lines 136-143;
identical in `bruteforce_parallel.c:177-184`): rank 0 blocks in
`MPI_Wait(&req, &st)`, every other rank runs straight to `MPI_Finalize`. -/
def bruteforce_exit_ops (id : Nat) : List MpiOp :=
  if id = 0 then [MpiOp.wait] else []

/-- Whether an exit path drains a still-pending receive: it must cancel the
request and subsequently wait on it. -/
def drainsReceive (ops : List MpiOp) : Bool :=
  (ops.dropWhile (fun o => decide (o ≠ MpiOp.cancel))).contains MpiOp.wait

/-- The events rank 0 of `program.c` prints as the run's result. -/
inductive ReportEvent where
  | success (k : Nat)
  | failed
deriving DecidableEq

/-- Rank 0's report block (`program.c:439-451`): exactly one branch of
`if(found > 0)` runs, printing either SUCCESS with the key or
`FAILED - Key not found in search space`. -/
def programReport (found : Nat) : List ReportEvent :=
  if 0 < found then [ReportEvent.success found] else [ReportEvent.failed]

/-- What rank 0 of `bruteforce.c` reports: it blocks in `MPI_Wait(&req, &st)`
(`bruteforce.c:138`) until some rank's broadcast arrives, so it produces a key
only if some rank hits one; `none` models the wait never returning. -/
def bruteforceReport (upper N : Nat) (pred : Nat → Bool) : Option Nat :=
  (commits pred upper N 1).head?

theorem foldl_commitStep_of_ne_zero (l : List Nat) (f : Nat) (hf : f ≠ 0) :
    l.foldl commitStep f = f := by
  induction l with
  | nil => rfl
  | cons x xs ih => simp only [List.foldl_cons, commitStep, if_neg hf]; exact ih

theorem foldl_commitStep_all_eq (k : Nat) (hk : k ≠ 0) (l : List Nat)
    (hl : ∀ x ∈ l, x = k) (hne : l ≠ []) : l.foldl commitStep 0 = k := by
  cases l with
  | nil => exact absurd rfl hne
  | cons x xs =>
    have hx : x = k := hl x (List.mem_cons_self x xs)
    subst hx
    simp only [List.foldl_cons, commitStep, if_pos rfl]
    exact foldl_commitStep_of_ne_zero xs x hk

theorem foldl_commitStep_all_zero (l : List Nat) (hl : ∀ x ∈ l, x = 0) :
    l.foldl commitStep 0 = 0 := by
  induction l with
  | nil => rfl
  | cons x xs ih =>
    have hx : x = 0 := hl x (List.mem_cons_self x xs)
    subst hx
    simp only [List.foldl_cons, commitStep, if_pos rfl]
    exact ih (fun y hy => hl y (List.mem_cons_of_mem 0 hy))

theorem range_per_node_mul_le (upper N m : Nat) (hm : m ≤ N) :
    range_per_node upper N * m ≤ upper :=
  calc range_per_node upper N * m ≤ range_per_node upper N * N :=
        Nat.mul_le_mul (Nat.le_refl _) hm
    _ = upper / N * N := rfl
    _ ≤ upper := Nat.div_mul_le_self upper N

theorem mylower_le_myupper (upper N id : Nat) (hid : id < N) :
    mylower upper N id ≤ myupper upper N id := by
  unfold mylower myupper
  split
  · exact range_per_node_mul_le upper N id (Nat.le_of_lt hid)
  · have h : range_per_node upper N * (id + 1) =
        range_per_node upper N * id + range_per_node upper N := by ring
    rcases Nat.eq_zero_or_pos (range_per_node upper N) with h0 | h0
    · simp [h0]
    · omega

theorem myupper_le_upper (upper N id : Nat) (hid : id < N) :
    myupper upper N id ≤ upper := by
  unfold myupper
  split
  · exact Nat.le_refl _
  · have h1 := range_per_node_mul_le upper N (id + 1) hid
    omega

theorem thread_lower_le_myupper (upper N T id t : Nat) (hid : id < N) (ht : t < T) :
    thread_lower upper N T id t ≤ myupper upper N id := by
  unfold thread_lower
  have hml := mylower_le_myupper upper N id hid
  have h1 : t * keys_per_thread upper N T id ≤ T * keys_per_thread upper N T id :=
    Nat.mul_le_mul (Nat.le_of_lt ht) (Nat.le_refl _)
  have h2 : T * keys_per_thread upper N T id ≤ myupper upper N id - mylower upper N id := by
    unfold keys_per_thread
    rw [Nat.mul_comm]
    exact Nat.div_mul_le_self _ T
  omega

theorem thread_upper_le_myupper (upper N T id t : Nat) (hid : id < N) (ht : t < T) :
    thread_upper upper N T id t ≤ myupper upper N id := by
  unfold thread_upper
  split
  · exact Nat.le_refl _
  · next hne =>
    unfold thread_lower
    have hml := mylower_le_myupper upper N id hid
    have htT : t + 1 ≤ T := ht
    have h1 : (t + 1) * keys_per_thread upper N T id ≤ T * keys_per_thread upper N T id :=
      Nat.mul_le_mul htT (Nat.le_refl _)
    have h2 : T * keys_per_thread upper N T id ≤ myupper upper N id - mylower upper N id := by
      unfold keys_per_thread
      rw [Nat.mul_comm]
      exact Nat.div_mul_le_self _ T
    have h3 : (t + 1) * keys_per_thread upper N T id =
        t * keys_per_thread upper N T id + keys_per_thread upper N T id :=
      Nat.succ_mul t _
    omega

theorem mem_threadKeys_lt (upper N T id t x : Nat) (hid : id < N) (ht : t < T)
    (hx : x ∈ threadKeys upper N T id t) : x < upper := by
  unfold threadKeys at hx
  have h := List.mem_range'_1.mp hx
  have h1 := thread_lower_le_myupper upper N T id t hid ht
  have h2 := thread_upper_le_myupper upper N T id t hid ht
  have h3 := myupper_le_upper upper N id hid
  omega

theorem mem_rankKeys_lt (upper N T id x : Nat) (hid : id < N)
    (hx : x ∈ rankKeys upper N T id) : x < upper := by
  unfold rankKeys at hx
  rw [List.mem_flatMap] at hx
  obtain ⟨t, htmem, hxk⟩ := hx
  exact mem_threadKeys_lt upper N T id t x hid (List.mem_range.mp htmem) hxk

theorem rankHit_eq_of_unique (pred : Nat → Bool) (upper N T k id : Nat) (hid : id < N)
    (huniq : ∀ j, j < upper → pred j = true → j = k) (a : Nat)
    (ha : rankHit pred upper N T id = some a) : a = k := by
  have hpa : pred a = true := List.find?_some ha
  have hmem : a ∈ rankKeys upper N T id := List.mem_of_find?_eq_some ha
  exact huniq a (mem_rankKeys_lt upper N T id a hid hmem) hpa

theorem rankHit_isSome_of_mem (pred : Nat → Bool) (upper N T k id : Nat)
    (hk : pred k = true) (hmem : k ∈ rankKeys upper N T id) :
    (rankHit pred upper N T id).isSome := by
  unfold rankHit
  exact List.find?_isSome.mpr ⟨k, hmem, hk⟩

theorem mem_commits_eq_of_unique (pred : Nat → Bool) (upper N T k : Nat)
    (huniq : ∀ j, j < upper → pred j = true → j = k) :
    ∀ x ∈ commits pred upper N T, x = k := by
  intro x hx
  unfold commits at hx
  rw [List.mem_filterMap] at hx
  obtain ⟨id, hidmem, hhit⟩ := hx
  exact rankHit_eq_of_unique pred upper N T k id (List.mem_range.mp hidmem) huniq x hhit

theorem mem_commits_of_mem_rankKeys (pred : Nat → Bool) (upper N T k id : Nat)
    (hid : id < N) (hk : pred k = true)
    (huniq : ∀ j, j < upper → pred j = true → j = k)
    (hmem : k ∈ rankKeys upper N T id) : k ∈ commits pred upper N T := by
  have hsome := rankHit_isSome_of_mem pred upper N T k id hk hmem
  obtain ⟨a, ha⟩ := Option.isSome_iff_exists.mp hsome
  have hak : a = k := rankHit_eq_of_unique pred upper N T k id hid huniq a ha
  subst hak
  unfold commits
  rw [List.mem_filterMap]
  exact ⟨id, List.mem_range.mpr hid, ha⟩

/-- C1: the partition formula stated by the spec (with `base = total / parts`,
part `i` getting `[i*base, (i+1)*base)` for `i < parts-1` and the last part
`[(parts-1)*base, total)`) is sorted, pairwise disjoint, and covers `[0, total)`
exactly, for every `total ≥ 1` and `1 ≤ parts ≤ total` — but the ranges the
code's search loops actually scan do not realise it: with `total = 8` and
`parts = 2`, key `3` lies in no rank's scanned range, because
`myupper = range_per_node*(id+1) - 1` is then used as an exclusive bound by
`for(i = mylower; i < myupper; ++i)`, dropping one key per non-last rank. -/
theorem spec_partition_correct_and_code_scan_gap :
    (∀ total parts, 1 ≤ parts → parts ≤ total →
      (∀ i j, i < j → j < parts →
        specUpper total parts i ≤ specLower total parts j) ∧
      (∀ x, x < total ↔ ∃ i, i < parts ∧
        specLower total parts i ≤ x ∧ x < specUpper total parts i)) ∧
    (3 < 8 ∧ ∀ id, id < 2 → 3 ∉ rankKeys 8 2 1 id) := by
  constructor
  · intro total parts hp ht
    have hb : 1 ≤ total / parts := (Nat.one_le_div_iff (by omega)).mpr ht
    constructor
    · intro i j hij hj
      have hi : i ≠ parts - 1 := by omega
      rw [specUpper, if_neg hi]
      unfold specLower
      exact Nat.mul_le_mul (Nat.le_refl _) hij
    · intro x
      constructor
      · intro hx
        rcases Nat.lt_or_ge (x / (total / parts)) (parts - 1) with h | h
        · refine ⟨x / (total / parts), by omega, ?_, ?_⟩
          · unfold specLower
            calc (total / parts) * (x / (total / parts))
                = x / (total / parts) * (total / parts) := Nat.mul_comm _ _
              _ ≤ x := Nat.div_mul_le_self x _
          · rw [specUpper, if_neg (by omega)]
            have hmod := Nat.div_add_mod x (total / parts)
            have hlt : x % (total / parts) < total / parts := Nat.mod_lt x (by omega)
            have hms : (total / parts) * (x / (total / parts) + 1) =
                (total / parts) * (x / (total / parts)) + (total / parts) := by ring
            omega
        · refine ⟨parts - 1, by omega, ?_, ?_⟩
          · unfold specLower
            calc (total / parts) * (parts - 1)
                ≤ (total / parts) * (x / (total / parts)) :=
                  Nat.mul_le_mul (Nat.le_refl _) h
              _ = x / (total / parts) * (total / parts) := Nat.mul_comm _ _
              _ ≤ x := Nat.div_mul_le_self x _
          · rw [specUpper, if_pos rfl]
            exact hx
      · rintro ⟨i, hi, hlo, hhi⟩
        by_cases h : i = parts - 1
        · rw [specUpper, if_pos h] at hhi
          exact hhi
        · rw [specUpper, if_neg h] at hhi
          have h1 : (total / parts) * (i + 1) ≤ (total / parts) * parts :=
            Nat.mul_le_mul (Nat.le_refl _) hi
          have h2 : total / parts * parts ≤ total := Nat.div_mul_le_self total parts
          omega
  · exact ⟨by decide, by decide⟩

/-- Witness for `spec_partition_correct_and_code_scan_gap`, instantiating the
partition property at `total = 8`, `parts = 2` and key `3`. -/
theorem spec_partition_correct_witness :
    specUpper 8 2 0 ≤ specLower 8 2 1 ∧
    (3 < 8 ↔ ∃ i, i < 2 ∧ specLower 8 2 i ≤ 3 ∧ 3 < specUpper 8 2 i) :=
  ⟨(spec_partition_correct_and_code_scan_gap.1 8 2 (by decide) (by decide)).1 0 1
      (by decide) (by decide),
   (spec_partition_correct_and_code_scan_gap.1 8 2 (by decide) (by decide)).2 3⟩

/-- C2 counterexample: two runs with exactly one satisfying key `k` in
`[0, 8)` whose outcome is not `Found(k)`.  With the planted key `0` (one peer,
one thread) the run reports not-found, because `found` stays `0`; with the
planted key `3` and two peers the run reports not-found, because key `3` is
the boundary key rank 0 never scans.  In both runs no nonzero key is ever
committed or announced, so every schedule agrees with the `runOutcome` model
used here — the announcement delivery race cannot arise. -/
theorem unique_key_zero_or_gap_not_found_cex :
    ((∀ j, j < 8 → (decide (j = 0) = true ↔ j = 0)) ∧
      runOutcome (fun j => decide (j = 0)) 8 1 1 = Outcome.notFound) ∧
    ((∀ j, j < 8 → (decide (j = 3) = true ↔ j = 3)) ∧
      runOutcome (fun j => decide (j = 3)) 8 2 1 = Outcome.notFound) := by
  exact ⟨⟨by decide, by decide⟩, ⟨by decide, by decide⟩⟩

/-- C2 amended: with exactly one satisfying key `k ≥ 1` in `[0, upper)`, a `k`
inside rank 0's own scanned range is always reported `Found(k)`, whatever the
delivery race does; a `k` scanned by any other rank is committed and announced
there, and is reported `Found(k)` exactly when the announcement completes
rank 0's posted receive before rank 0 cancels it at the end of its own scan
(`program.c:428-431`) — when the cancel wins the race, no announcement is ever
deposited and the run reports not-found despite the successful find. -/
theorem unique_scanned_positive_key_found (pred : Nat → Bool) (upper N T k : Nat)
    (hN : 0 < N) (hk : pred k = true)
    (huniq : ∀ j, j < upper → pred j = true → j = k) (hpos : 0 < k) :
    (k ∈ rankKeys upper N T 0 →
      ∀ announced, runOutcomeD pred upper N T announced = Outcome.success k) ∧
    runOutcomeD pred upper N T (some k) = Outcome.success k ∧
    (rankHit pred upper N T 0 = none →
      runOutcomeD pred upper N T none = Outcome.notFound) := by
  refine ⟨?_, ?_, ?_⟩
  · intro hmem announced
    have hsome := rankHit_isSome_of_mem pred upper N T k 0 hk hmem
    obtain ⟨a, ha⟩ := Option.isSome_iff_exists.mp hsome
    have hak : a = k := rankHit_eq_of_unique pred upper N T k 0 hN huniq a ha
    subst hak
    unfold runOutcomeD rank0Found
    rw [ha]
    show (if 0 < a then Outcome.success a else Outcome.notFound) =
      Outcome.success a
    rw [if_pos hpos]
  · unfold runOutcomeD rank0Found
    cases ha : rankHit pred upper N T 0 with
    | none =>
      show (if 0 < k then Outcome.success k else Outcome.notFound) =
        Outcome.success k
      rw [if_pos hpos]
    | some a =>
      have hak : a = k := rankHit_eq_of_unique pred upper N T k 0 hN huniq a ha
      subst hak
      show (if 0 < a then Outcome.success a else Outcome.notFound) =
        Outcome.success a
      rw [if_pos hpos]
  · intro ha
    unfold runOutcomeD rank0Found
    rw [ha]
    rfl

/-- Witness for `unique_scanned_positive_key_found`: the spec's end-to-end
scenario — planted key `37`, four peers, two threads per peer — is reported as
success when the finder's announcement is delivered to rank 0. -/
theorem unique_scanned_positive_key_found_witness :
    runOutcomeD (fun j => decide (j = 37)) 64 4 2 (some 37) =
      Outcome.success 37 :=
  (unique_scanned_positive_key_found (fun j => decide (j = 37)) 64 4 2 37
    (by decide) (by decide) (fun _ _ hj => of_decide_eq_true hj)
    (by decide)).2.1

/-- C3: when no key satisfies the predicate the outcome is indeed not-found;
but the candidates are not all tried: at `upper = 8`, `N = 2` peers, `T = 1`
thread, key `3` is passed to the predicate zero times (every other candidate
exactly once), because each non-last rank's loop stops one key short of its
nominal range. -/
theorem exhausted_notfound_and_gap_key_untried :
    (∀ pred upper N T, (∀ j, pred j = false) →
      runOutcome pred upper N T = Outcome.notFound) ∧
    ((allKeys 8 2 1).count 3 = 0 ∧ 3 < 8 ∧
      ∀ x, x < 8 → x ≠ 3 → (allKeys 8 2 1).count x = 1) := by
  constructor
  · intro pred upper N T hpred
    have hcm : commits pred upper N T = [] := by
      unfold commits
      rw [List.filterMap_eq_nil_iff]
      intro id _
      unfold rankHit
      rw [List.find?_eq_none]
      intro x _
      simp [hpred x]
    unfold runOutcome finalFound
    rw [hcm]
    simp
  · exact ⟨by decide, by decide, by decide⟩

/-- Witness for `exhausted_notfound_and_gap_key_untried` on the always-false
predicate over `[0, 8)` with two peers. -/
theorem exhausted_notfound_witness :
    runOutcome (fun _ => false) 8 2 1 = Outcome.notFound :=
  exhausted_notfound_and_gap_key_untried.1 (fun _ => false) 8 2 1 (fun _ => rfl)

/-- C7: the code performs no configuration validation at all.  With `9` peers
on a key space of size `8` (peer count greater than the key-space size) the
search silently proceeds instead of failing fast: ranks `0..7` scan nothing,
rank `8` scans the whole space and commits the planted key, and the run ends
in an ordinary report whichever way the delivery race goes — success when
rank 8's announcement beats rank 0's cancel, the not-found report when it does
not (ranks `0..7` have empty loops and cancel at once) — never in a refusal to
start. -/
theorem no_fail_fast_on_invalid_peer_count :
    (∀ id, id < 8 → rankKeys 8 9 1 id = []) ∧
    rankKeys 8 9 1 8 = [0, 1, 2, 3, 4, 5, 6, 7] ∧
    rankHit (fun j => decide (j = 5)) 8 9 1 8 = some 5 ∧
    runOutcomeD (fun j => decide (j = 5)) 8 9 1 (some 5) = Outcome.success 5 ∧
    runOutcomeD (fun j => decide (j = 5)) 8 9 1 none = Outcome.notFound := by
  exact ⟨by decide, by decide, by decide, by decide, by decide⟩

/-- Witness for `no_fail_fast_on_invalid_peer_count`: rank 3 of the
degenerate 9-peer configuration scans no keys at all. -/
theorem no_fail_fast_witness : rankKeys 8 9 1 3 = [] :=
  no_fail_fast_on_invalid_peer_count.1 3 (by decide)

/-- C10: a predicate satisfied only by key `0` leads to the not-found outcome:
`found` is initialised to `0` meaning "nothing committed", the remote stop
guard `flag && found != 0` never fires on an announced `0`, and no run can
ever report `Found(0)` since success requires `found > 0`. -/
theorem key_zero_reported_not_found :
    (∀ pred upper N T, (∀ j, pred j = true → j = 0) →
      runOutcome pred upper N T = Outcome.notFound) ∧
    (∀ flag, stopOnRemote flag 0 = false) ∧
    (∀ pred upper N T, runOutcome pred upper N T ≠ Outcome.success 0) := by
  refine ⟨?_, ?_, ?_⟩
  · intro pred upper N T h0
    have hall : ∀ x ∈ commits pred upper N T, x = 0 := by
      intro x hx
      unfold commits at hx
      rw [List.mem_filterMap] at hx
      obtain ⟨id, _, hhit⟩ := hx
      exact h0 x (List.find?_some hhit)
    unfold runOutcome finalFound
    rw [foldl_commitStep_all_zero _ hall]
    simp
  · intro flag
    simp [stopOnRemote]
  · intro pred upper N T
    unfold runOutcome
    split
    · next h =>
      intro he
      injection he with hk
      omega
    · exact fun he => Outcome.noConfusion he

/-- Witness for `key_zero_reported_not_found`: the planted key `0` over
`[0, 8)` with two peers is reported as not found. -/
theorem key_zero_reported_not_found_witness :
    runOutcome (fun j => decide (j = 0)) 8 2 1 = Outcome.notFound :=
  key_zero_reported_not_found.1 (fun j => decide (j = 0)) 8 2 1
    (fun _ hj => of_decide_eq_true hj)

theorem foldl_foundStep_local_ne_zero (ks : List Nat) (f : Nat) (hf : f ≠ 0) :
    (ks.map FoundEvent.localCommit).foldl foundStep f = f := by
  induction ks with
  | nil => rfl
  | cons x xs ih =>
    simp only [List.map_cons, List.foldl_cons, foundStep, if_neg hf]
    exact ih

/-- C4 counterexample: a process whose `found` cell holds a locally committed
nonzero key `5` and whose posted receive then completes with a peer's
announcement of a different key `7` ends up holding `7`: the receive deposit
is unguarded, so the stored key does change after becoming non-initial. -/
theorem remote_announce_overwrites_local_commit_cex :
    runFound [FoundEvent.localCommit 5] = 5 ∧
    runFound [FoundEvent.localCommit 5, FoundEvent.recvAnnounce 7] = 7 ∧
    (5 : Nat) ≠ 0 ∧ (7 : Nat) ≠ 5 := by decide

/-- C4 amended: local commits are commit-once — once `found` is nonzero every
later local commit is a no-op, so among contending worker threads carrying
nonzero keys exactly the first key is stored; the completion of the posted
receive, however, deposits the announced key into the cell unconditionally
(this can happen at most once per process, as a single receive is posted). -/
theorem local_commit_once_remote_deposit :
    (∀ f k, f ≠ 0 → foundStep f (FoundEvent.localCommit k) = f) ∧
    (∀ k ks, k ≠ 0 → runFound ((k :: ks).map FoundEvent.localCommit) = k) ∧
    (∀ f k, foundStep f (FoundEvent.recvAnnounce k) = k) := by
  refine ⟨?_, ?_, ?_⟩
  · intro f k hf
    simp only [foundStep, if_neg hf]
  · intro k ks hk
    unfold runFound
    rw [List.map_cons, List.foldl_cons]
    have h0 : foundStep 0 (FoundEvent.localCommit k) = k := rfl
    rw [h0]
    exact foldl_foundStep_local_ne_zero ks k hk
  · intro f k
    rfl

/-- Witness for `local_commit_once_remote_deposit`: with `found = 5` a late
local commit of `9` is a no-op, and a thread race committing `5` then `9`
stores only `5`. -/
theorem local_commit_once_witness :
    foundStep 5 (FoundEvent.localCommit 9) = 5 ∧
    runFound ((5 :: [9]).map FoundEvent.localCommit) = 5 :=
  ⟨local_commit_once_remote_deposit.1 5 9 (by decide),
   local_commit_once_remote_deposit.2.1 5 [9] (by decide)⟩

theorem foldl_hitStep_ne_zero (ks : List Nat) (s : BState) (hs : s.found ≠ 0) :
    ks.foldl hitStep s = s := by
  induction ks with
  | nil => rfl
  | cons x xs ih =>
    simp only [List.foldl_cons, hitStep, if_neg hs]
    exact ih

/-- C8 counterexample: a process whose threads reach the commit section first
with the satisfying key `0` and then with the satisfying key `7` executes the
whole broadcast loop twice — committing `0` leaves the `found == 0` guard
open — so with two peers it sends peer `0` two announcements. -/
theorem zero_key_double_broadcast_cex :
    (runHits [0, 7]).bcasts = [0, 7] ∧
    ((runHits [0, 7]).bcasts.length = 2 ∧ (2 : Nat) ≠ 1) ∧
    (sends 2 (runHits [0, 7])).countP (fun p => decide (p.1 = 0)) = 2 := by
  decide

/-- C8 amended: provided the first key to reach the commit section is nonzero,
the process executes the broadcast loop exactly once — later hits are no-ops —
and sends that single winning key to every peer exactly once. -/
theorem nonzero_commit_broadcasts_once (k : Nat) (ks : List Nat) (hk : k ≠ 0)
    (N : Nat) :
    (runHits (k :: ks)).bcasts = [k] ∧
    (sends N (runHits (k :: ks))).length = N ∧
    (sends N (runHits (k :: ks)) =
        (List.range N).map (fun node => (node, k)) ∧
      (sends N (runHits (k :: ks))).Nodup) := by
  have hrun : runHits (k :: ks) = { found := k, bcasts := [k] } := by
    unfold runHits
    rw [List.foldl_cons]
    have h0 : hitStep { found := 0, bcasts := [] } k =
        { found := k, bcasts := [k] } := rfl
    rw [h0]
    exact foldl_hitStep_ne_zero ks _ hk
  rw [hrun]
  have hsends : sends N { found := k, bcasts := [k] } =
      (List.range N).map (fun node => (node, k)) := by
    simp [sends]
  have hinj : Function.Injective (fun node : Nat => (node, k)) := by
    intro a b hab
    simpa using hab
  have hnd : ((List.range N).map (fun node => (node, k))).Nodup :=
    (List.nodup_range N).map hinj
  refine ⟨rfl, ?_, hsends, ?_⟩
  · rw [hsends]
    simp
  · rw [hsends]
    exact hnd

/-- Witness for `nonzero_commit_broadcasts_once`: hits `7` then `3` broadcast
only `7`, each of the two peers receiving exactly one announcement. -/
theorem nonzero_commit_broadcasts_once_witness :
    (runHits [7, 3]).bcasts = [7] ∧
    sends 2 (runHits [7, 3]) = (List.range 2).map (fun node => (node, 7)) :=
  ⟨(nonzero_commit_broadcasts_once 7 [3] (by decide) 2).1,
   ((nonzero_commit_broadcasts_once 7 [3] (by decide) 2).2.2).1⟩

/-- C6 counterexample: in `bruteforce.c` a rank other than `0` performs neither
`MPI_Cancel` nor `MPI_Wait` after its loop, and even rank 0 never cancels, so
an exit with the posted receive still pending leaves it un-drained. -/
theorem bruteforce_rank_exits_without_drain_cex :
    bruteforce_exit_ops 1 = [] ∧
    drainsReceive (bruteforce_exit_ops 1) = false ∧
    drainsReceive (bruteforce_exit_ops 0) = false := by
  decide

/-- C6 amended: in `program.c` and `program_parallel.c` every rank's exit path
with the receive never observed complete cancels it and then waits on it; in
`bruteforce.c`/`bruteforce_parallel.c` ranks other than `0` run no receive
call at all at shutdown, and rank `0` only waits, never cancels. -/
theorem program_drains_bruteforce_does_not :
    (∀ id flag, flag = false → drainsReceive (program_exit_ops id flag) = true) ∧
    (∀ id, id ≠ 0 → bruteforce_exit_ops id = []) ∧
    MpiOp.cancel ∉ bruteforce_exit_ops 0 := by
  refine ⟨?_, ?_, ?_⟩
  · intro id flag hf
    subst hf
    by_cases hid : id = 0
    · subst hid
      decide
    · simp only [program_exit_ops, if_neg hid]
      decide
  · intro id hid
    simp [bruteforce_exit_ops, hid]
  · decide

/-- Witness for `program_drains_bruteforce_does_not`: rank `3` of `program.c`
with an uncompleted receive drains it; rank `2` of `bruteforce.c` does
nothing. -/
theorem program_drains_witness :
    drainsReceive (program_exit_ops 3 false) = true ∧
    bruteforce_exit_ops 2 = [] :=
  ⟨program_drains_bruteforce_does_not.1 3 false rfl,
   program_drains_bruteforce_does_not.2.1 2 (by decide)⟩

/-- C9 counterexample: over the space `[0, 8)` with two peers and a predicate
no key satisfies, `bruteforce.c` rank 0 never receives an announcement — its
blocking `MPI_Wait` never returns and no outcome is ever reported. -/
theorem bruteforce_reporter_blocks_cex :
    bruteforceReport 8 2 (fun _ => false) = none := by
  decide

/-- C9 amended: rank 0 of `program.c`/`program_parallel.c` always emits exactly
one outcome — success with the key when `found > 0`, the explicit FAILED
outcome otherwise; rank 0 of `bruteforce.c` reports a key only when some rank's
scan hits one, and blocks forever reporting nothing when nothing is found. -/
theorem program_reporter_single_outcome :
    (∀ f, (programReport f).length = 1) ∧
    (∀ f, 0 < f → programReport f = [ReportEvent.success f]) ∧
    programReport 0 = [ReportEvent.failed] ∧
    (∀ upper N pred, (∃ id, id < N ∧ (rankHit pred upper N 1 id).isSome) →
      (bruteforceReport upper N pred).isSome) := by
  refine ⟨?_, ?_, rfl, ?_⟩
  · intro f
    unfold programReport
    split <;> rfl
  · intro f hf
    unfold programReport
    rw [if_pos hf]
  · rintro upper N pred ⟨id, hid, hsome⟩
    obtain ⟨a, ha⟩ := Option.isSome_iff_exists.mp hsome
    have hmem : a ∈ commits pred upper N 1 := by
      unfold commits
      rw [List.mem_filterMap]
      exact ⟨id, List.mem_range.mpr hid, ha⟩
    unfold bruteforceReport
    cases hcl : commits pred upper N 1 with
    | nil =>
      rw [hcl] at hmem
      exact absurd hmem (List.not_mem_nil a)
    | cons y ys =>
      rfl

/-- Witness for `program_reporter_single_outcome`: `found = 5` is reported as
success, and `bruteforce.c` rank 0 does report when rank 1 hits key `5`. -/
theorem program_reporter_single_outcome_witness :
    programReport 5 = [ReportEvent.success 5] ∧
    (bruteforceReport 8 2 (fun j => decide (j = 5))).isSome :=
  ⟨program_reporter_single_outcome.2.1 5 (by decide),
   program_reporter_single_outcome.2.2.2 8 2 (fun j => decide (j = 5))
     ⟨1, by decide, by decide⟩⟩

theorem trialCount_nil : trialCount [] = 0 := rfl

theorem trialCount_sigRead (v : Nat) (es : List WEvent) :
    trialCount (WEvent.sigRead v :: es) = trialCount es := by
  simp [trialCount, List.countP_cons]

theorem trialCount_chanCheck (c : Nat) (es : List WEvent) :
    trialCount (WEvent.chanCheck c :: es) = trialCount es := by
  simp [trialCount, List.countP_cons]

theorem trialCount_trial (k : Nat) (es : List WEvent) :
    trialCount (WEvent.trial k :: es) = trialCount es + 1 := by
  simp [trialCount, List.countP_cons]

theorem trialCount_commit (k : Nat) (es : List WEvent) :
    trialCount (WEvent.commit k :: es) = trialCount es := by
  simp [trialCount, List.countP_cons]

theorem chanChecks_nil : chanChecks [] = [] := rfl

theorem chanChecks_sigRead (v : Nat) (es : List WEvent) :
    chanChecks (WEvent.sigRead v :: es) = chanChecks es := by
  simp [chanChecks, List.filterMap_cons]

theorem chanChecks_chanCheck (c : Nat) (es : List WEvent) :
    chanChecks (WEvent.chanCheck c :: es) = c :: chanChecks es := by
  simp [chanChecks, List.filterMap_cons]

theorem chanChecks_trial (k : Nat) (es : List WEvent) :
    chanChecks (WEvent.trial k :: es) = chanChecks es := by
  simp [chanChecks, List.filterMap_cons]

theorem chanChecks_commit (k : Nat) (es : List WEvent) :
    chanChecks (WEvent.commit k :: es) = chanChecks es := by
  simp [chanChecks, List.filterMap_cons]

theorem workerLoop_trials_le (env : WorkerEnv)
    (hmono : ∀ a b, a ≤ b → env.sig a ≠ 0 → env.sig b ≠ 0)
    (t : Nat) (ht : env.sig t ≠ 0) :
    ∀ fuel i c n, trialCount (workerLoop env fuel i c n) ≤ t - n := by
  intro fuel
  induction fuel with
  | zero =>
    intro i c n
    simp [workerLoop, trialCount]
  | succ fuel ih =>
    intro i c n
    simp only [workerLoop]
    by_cases hv : env.sig n ≠ 0
    · rw [if_pos hv, trialCount_sigRead, trialCount_nil]
      exact Nat.zero_le _
    · have hnt : n < t := by
        rcases Nat.lt_or_ge n t with h | h
        · exact h
        · exact absurd (hmono t n h ht) hv
      rw [if_neg hv]
      by_cases hc : env.thread_id = 0 ∧ c % 10000 = 0
      · rw [if_pos hc]
        by_cases hf : env.flagHit n = true
        · rw [if_pos hf, trialCount_sigRead, trialCount_chanCheck, trialCount_nil]
          exact Nat.zero_le _
        · rw [if_neg hf]
          by_cases hp : env.pred i = true
          · rw [if_pos hp, trialCount_sigRead, trialCount_chanCheck,
              trialCount_trial, trialCount_commit, trialCount_nil]
            omega
          · rw [if_neg hp, trialCount_sigRead, trialCount_chanCheck,
              trialCount_trial]
            have hrec := ih (i + 1) (bumpCounter c) (n + 1)
            omega
      · rw [if_neg hc]
        by_cases hp : env.pred i = true
        · rw [if_pos hp, trialCount_sigRead, trialCount_trial,
            trialCount_commit, trialCount_nil]
          omega
        · rw [if_neg hp, trialCount_sigRead, trialCount_trial]
          have hrec := ih (i + 1) (bumpCounter c) (n + 1)
          omega

theorem workerLoop_no_chanChecks (env : WorkerEnv) (h : env.thread_id ≠ 0) :
    ∀ fuel i c n, chanChecks (workerLoop env fuel i c n) = [] := by
  intro fuel
  induction fuel with
  | zero =>
    intro i c n
    rfl
  | succ fuel ih =>
    intro i c n
    simp only [workerLoop]
    by_cases hv : env.sig n ≠ 0
    · rw [if_pos hv, chanChecks_sigRead, chanChecks_nil]
    · rw [if_neg hv]
      have hc : ¬(env.thread_id = 0 ∧ c % 10000 = 0) := fun hcc => h hcc.1
      rw [if_neg hc]
      by_cases hp : env.pred i = true
      · rw [if_pos hp, chanChecks_sigRead, chanChecks_trial, chanChecks_commit,
          chanChecks_nil]
      · rw [if_neg hp, chanChecks_sigRead, chanChecks_trial]
        exact ih (i + 1) (bumpCounter c) (n + 1)

theorem workerLoop_chanChecks_cadence (env : WorkerEnv) :
    ∀ fuel i c n x, x ∈ chanChecks (workerLoop env fuel i c n) →
      x % 10000 = 0 := by
  intro fuel
  induction fuel with
  | zero =>
    intro i c n x hx
    simp [workerLoop, chanChecks] at hx
  | succ fuel ih =>
    intro i c n x hx
    simp only [workerLoop] at hx
    by_cases hv : env.sig n ≠ 0
    · rw [if_pos hv, chanChecks_sigRead, chanChecks_nil] at hx
      exact absurd hx (List.not_mem_nil x)
    · rw [if_neg hv] at hx
      by_cases hc : env.thread_id = 0 ∧ c % 10000 = 0
      · rw [if_pos hc] at hx
        by_cases hf : env.flagHit n = true
        · rw [if_pos hf, chanChecks_sigRead, chanChecks_chanCheck,
            chanChecks_nil] at hx
          rcases List.mem_cons.mp hx with hxc | hxe
          · rw [hxc]
            exact hc.2
          · exact absurd hxe (List.not_mem_nil x)
        · rw [if_neg hf] at hx
          by_cases hp : env.pred i = true
          · rw [if_pos hp, chanChecks_sigRead, chanChecks_chanCheck,
              chanChecks_trial, chanChecks_commit, chanChecks_nil] at hx
            rcases List.mem_cons.mp hx with hxc | hxe
            · rw [hxc]
              exact hc.2
            · exact absurd hxe (List.not_mem_nil x)
          · rw [if_neg hp, chanChecks_sigRead, chanChecks_chanCheck,
              chanChecks_trial] at hx
            rcases List.mem_cons.mp hx with hxc | hxe
            · rw [hxc]
              exact hc.2
            · exact ih (i + 1) (bumpCounter c) (n + 1) x hxe
      · rw [if_neg hc] at hx
        by_cases hp : env.pred i = true
        · rw [if_pos hp, chanChecks_sigRead, chanChecks_trial,
            chanChecks_commit, chanChecks_nil] at hx
          exact absurd hx (List.not_mem_nil x)
        · rw [if_neg hp, chanChecks_sigRead, chanChecks_trial] at hx
          exact ih (i + 1) (bumpCounter c) (n + 1) x hx

/-- C5: a hybrid worker reads the shared termination signal at the top of every
iteration — at least as often as the stated 10⁴ cadence — so once the signal is
set from iteration `t` on, the worker performs at most `t` trial calls in
total, i.e. zero further trials after the signal (well within one poll cadence);
and the inter-process channel (`MPI_Test` on the posted receive) is touched
only by the designated poller thread 0, and only at iterations where the local
trial counter is a multiple of 10000. -/
theorem worker_cancel_latency_and_poller_cadence (env : WorkerEnv)
    (fuel i c n : Nat) :
    (∀ t, (∀ a b, a ≤ b → env.sig a ≠ 0 → env.sig b ≠ 0) → env.sig t ≠ 0 →
      trialCount (workerLoop env fuel i c n) ≤ t) ∧
    (env.thread_id ≠ 0 → chanChecks (workerLoop env fuel i c n) = []) ∧
    (∀ x ∈ chanChecks (workerLoop env fuel i c n), x % 10000 = 0) := by
  refine ⟨?_, ?_, ?_⟩
  · intro t hmono ht
    have h := workerLoop_trials_le env hmono t ht fuel i c n
    omega
  · intro h
    exact workerLoop_no_chanChecks env h fuel i c n
  · intro x hx
    exact workerLoop_chanChecks_cadence env fuel i c n x hx

/-- Witness for `worker_cancel_latency_and_poller_cadence`: a worker whose
signal is set from the start performs zero trials, and a thread other than the
poller never touches the channel. -/
theorem worker_cancel_latency_witness :
    trialCount (workerLoop
      { thread_id := 1, pred := fun _ => false, sig := fun _ => 5,
        flagHit := fun _ => false } 10 0 0 0) ≤ 0 ∧
    chanChecks (workerLoop
      { thread_id := 1, pred := fun _ => false, sig := fun _ => 5,
        flagHit := fun _ => false } 10 0 0 0) = [] :=
  ⟨(worker_cancel_latency_and_poller_cadence
      { thread_id := 1, pred := fun _ => false, sig := fun _ => 5,
        flagHit := fun _ => false } 10 0 0 0).1 0 (fun _ _ _ h => h) (by decide),
   (worker_cancel_latency_and_poller_cadence
      { thread_id := 1, pred := fun _ => false, sig := fun _ => 5,
        flagHit := fun _ => false } 10 0 0 0).2.1 (by decide)⟩
